import Mathlib

/-!
Verification of the rehype-sidenotes transform (src/lib/main.ts,
src/lib/util.ts and the maybe helper) against its specification.

The HAST document tree is embedded as an inductive type; each exported
function of the source is translated into a pure Lean function.  The
source mutates the tree through JavaScript object references; the
embedding passes trees explicitly, and structural equality of nodes
stands in for reference identity (exact whenever no two distinct nodes
of a tree are structurally identical, which holds for ordinary
documents).
-/

set_option maxHeartbeats 1000000

namespace RehypeSidenotes

/-- A HAST node.  Only the four node kinds the transform touches are
modelled (`root`, `element`, `text`, `comment`).  Element properties are
an association list from property name to string value; the `className`
property holds space-separated class tokens. -/
inductive Node where
  | root (children : List Node)
  | element (tagName : String) (properties : List (String × String)) (children : List Node)
  | text (value : String)
  | comment (value : String)
deriving Repr

mutual
/-- Structural equality of nodes, mutually with node lists. -/
def beqN : Node → Node → Bool
  | .root cs, .root ds => beqL cs ds
  | .element t p cs, .element t' p' ds => t == t' && p == p' && beqL cs ds
  | .text v, .text w => v == w
  | .comment v, .comment w => v == w
  | _, _ => false

/-- Structural equality of node lists. -/
def beqL : List Node → List Node → Bool
  | [], [] => true
  | c :: cs, d :: ds => beqN c d && beqL cs ds
  | _, _ => false
end

attribute [simp] beqN beqL

mutual
theorem beqN_iff : ∀ a b : Node, beqN a b = true ↔ a = b
  | .root cs, .root ds => by simp [beqL_iff cs ds]
  | .root _, .element _ _ _ => by simp
  | .root _, .text _ => by simp
  | .root _, .comment _ => by simp
  | .element _ _ _, .root _ => by simp
  | .element t p cs, .element t' p' ds => by
      simp [beqL_iff cs ds, and_assoc]
  | .element _ _ _, .text _ => by simp
  | .element _ _ _, .comment _ => by simp
  | .text _, .root _ => by simp
  | .text _, .element _ _ _ => by simp
  | .text v, .text w => by simp
  | .text _, .comment _ => by simp
  | .comment _, .root _ => by simp
  | .comment _, .element _ _ _ => by simp
  | .comment _, .text _ => by simp
  | .comment v, .comment w => by simp
theorem beqL_iff : ∀ as bs : List Node, beqL as bs = true ↔ as = bs
  | [], [] => by simp
  | [], _ :: _ => by simp
  | _ :: _, [] => by simp
  | c :: cs, d :: ds => by simp [beqN_iff c d, beqL_iff cs ds]
end

instance : DecidableEq Node := fun a b => decidable_of_iff (beqN a b = true) (beqN_iff a b)

/-- Split a character list at every space (the behaviour of
JavaScript's `String.prototype.split(' ')` on the accumulated token). -/
def splitOnSpaceAux : List Char → List Char → List String
  | [], acc => [String.mk acc.reverse]
  | c :: cs, acc =>
      if c = ' ' then String.mk acc.reverse :: splitOnSpaceAux cs []
      else splitOnSpaceAux cs (c :: acc)

/-- Split a string at every space character. -/
def splitOnSpace (s : String) : List String := splitOnSpaceAux s.data []

namespace Node

/-- The child list of a node (`text`/`comment` have none). -/
def childrenOf : Node → List Node
  | .root cs => cs
  | .element _ _ cs => cs
  | .text _ => []
  | .comment _ => []

/-- Replace a node's child list, keeping its kind, tag and properties:
this is what an in-place mutation of the JS `children` array does to a
node. -/
def withChildren : Node → List Node → Node
  | .root _, cs => .root cs
  | .element t p _, cs => .element t p cs
  | .text v, _ => .text v
  | .comment v, _ => .comment v

/-- `isElement` from util.ts: is the node of kind `element`? -/
def isElement : Node → Bool
  | .element _ _ _ => true
  | _ => false

/-- Is the node the `root` kind (JS `type === 'root'`)? -/
def isRoot : Node → Bool
  | .root _ => true
  | _ => false

/-- Tag name of an element (empty for other kinds). -/
def tagOf : Node → String
  | .element t _ _ => t
  | _ => ""

/-- Properties of an element (empty for other kinds). -/
def propsOf : Node → List (String × String)
  | .element _ p _ => p
  | _ => []

/-- Property lookup on an element's association list. -/
def getProp (n : Node) (key : String) : Option String :=
  (propsOf n).lookup key

/-- JS `` `${el.properties[key]}` ``: string conversion of a property,
which is the string `"undefined"` when the property is absent. -/
def strProp (n : Node) (key : String) : String :=
  (getProp n key).getD "undefined"

/-- The class tokens of a node: the `className` property split on
spaces (hast stores the HTML `class` attribute this way). -/
def classTokens (n : Node) : List String :=
  match getProp n "className" with
  | some v => splitOnSpace v
  | none => []

/-- Does the node carry the given class token (CSS `.token`)? -/
def hasClass (n : Node) (tok : String) : Bool :=
  (classTokens n).contains tok

/-- Attribute-presence selector `[key]`. -/
def hasProperty (n : Node) (key : String) : Bool :=
  (getProp n key).isSome

/-- Attribute-equality selector `[key="v"]`. -/
def propEq (n : Node) (key v : String) : Bool :=
  getProp n key == some v

end Node

open Node

/-! ### Tree traversals -/

mutual
/-- All nodes of a tree in preorder (document order): the node itself,
then the nodes of every child subtree left to right.  This is the
search space of `hast-util-select`'s `select`/`selectAll`. -/
def allNodes : Node → List Node
  | .root cs => .root cs :: allNodesL cs
  | .element t p cs => .element t p cs :: allNodesL cs
  | .text v => [.text v]
  | .comment v => [.comment v]
/-- Preorder nodes of a forest, left to right. -/
def allNodesL : List Node → List Node
  | [] => []
  | c :: cs => allNodes c ++ allNodesL cs
end

/-- The proper descendants of a node, in document order (the relative
`:has(…)` / descendant-combinator search space, which excludes the
scope node itself). -/
def properDescendants (n : Node) : List Node :=
  allNodesL n.childrenOf

/-- `select(pred, tree)`: the first node in document order satisfying
the (compiled) selector predicate, or absent. -/
def selectFirst (p : Node → Bool) (t : Node) : Option Node :=
  (allNodes t).find? p

mutual
/-- `getText` from util.ts: text node values concatenated over the
subtree; comments contribute nothing. -/
def getText : Node → String
  | .text v => v
  | .comment _ => ""
  | .root cs => getTextL cs
  | .element _ _ cs => getTextL cs
/-- Concatenation of `getText` over a child list (`children.map(getText).join('')`). -/
def getTextL : List Node → String
  | [] => ""
  | c :: cs => getText c ++ getTextL cs
end

mutual
/-- `elDepth` from util.ts: non-elements and childless nodes yield
`currentDepth + 1`; otherwise the maximum of `elDepth(child, currentDepth + 1)`
over the children. -/
def elDepth : Node → Nat → Nat
  | .text _, d => d + 1
  | .comment _, d => d + 1
  | .root cs, d => if cs.isEmpty then d + 1 else elDepthMax cs (d + 1)
  | .element _ _ cs, d => if cs.isEmpty then d + 1 else elDepthMax cs (d + 1)
/-- `Math.max(...children.map(elDepth · d))` over a non-empty child list. -/
def elDepthMax : List Node → Nat → Nat
  | [], _ => 0
  | c :: cs, d => max (elDepth c d) (elDepthMax cs d)
end

mutual
/-- Subtree depth as the specification words it: `1` for a childless
node, otherwise `1` plus the maximum depth of the children. -/
def specDepth : Node → Nat
  | .text _ => 1
  | .comment _ => 1
  | .root cs => if cs.isEmpty then 1 else 1 + specDepthMax cs
  | .element _ _ cs => if cs.isEmpty then 1 else 1 + specDepthMax cs
/-- Maximum of `specDepth` over a list. -/
def specDepthMax : List Node → Nat
  | [] => 0
  | c :: cs => max (specDepth c) (specDepthMax cs)
end

mutual
/-- Document-order nodes paired with their strict ancestors inside the
search tree (nearest first).  Drives descendant-combinator selectors
such as `[data-footnotes] [id="x"]`. -/
def nodesWithAncestors (anc : List Node) : Node → List (Node × List Node)
  | .root cs => (.root cs, anc) :: nodesWithAncestorsL (.root cs :: anc) cs
  | .element t p cs => (.element t p cs, anc) :: nodesWithAncestorsL (.element t p cs :: anc) cs
  | .text v => [(.text v, anc)]
  | .comment v => [(.comment v, anc)]
/-- `nodesWithAncestors` over a forest. -/
def nodesWithAncestorsL (anc : List Node) : List Node → List (Node × List Node)
  | [] => []
  | c :: cs => nodesWithAncestors anc c ++ nodesWithAncestorsL anc cs
end

mutual
/-- Does the subtree rooted at the second argument contain (possibly as
itself) a node structurally equal to `a`? -/
def containsN (a : Node) : Node → Bool
  | .root cs => Node.root cs = a || containsL a cs
  | .element t p cs => Node.element t p cs = a || containsL a cs
  | .text v => Node.text v = a
  | .comment v => Node.comment v = a
/-- `containsN` over a forest. -/
def containsL (a : Node) : List Node → Bool
  | [] => false
  | c :: cs => containsN a c || containsL a cs
end

mutual
/-- Would `findParentOfEl(el, t)` from util.ts succeed?  True when `t`'s
children contain `el`, or, recursively, some element child's subtree
provides a parent.  The search never descends into non-element children. -/
def hasParN (el : Node) : Node → Bool
  | .root cs => cs.contains el || hasParL el cs
  | .element _ _ cs => cs.contains el || hasParL el cs
  | .text _ => false
  | .comment _ => false
/-- The child loop of `findParentOfEl`: try element children in order. -/
def hasParL (el : Node) : List Node → Bool
  | [] => false
  | c :: cs => (c.isElement && hasParN el c) || hasParL el cs
end

mutual
/-- `removeEl` from util.ts, as a pure tree transformation: locate the
first parent of `el` in depth-first order (the node whose children
contain `el`, or the first element child whose subtree provides a
parent) and splice `el` out of that parent's child list.  No-op when
`el` has no parent in the tree. -/
def removeElN (el : Node) : Node → Node
  | .root cs => if cs.contains el then .root (cs.erase el) else .root (removeElL el cs)
  | .element t p cs =>
      if cs.contains el then .element t p (cs.erase el) else .element t p (removeElL el cs)
  | .text v => .text v
  | .comment v => .comment v
/-- The child loop of `removeEl`: descend into the first element child
whose subtree contains a parent of `el`. -/
def removeElL (el : Node) : List Node → List Node
  | [] => []
  | c :: cs => if c.isElement && hasParN el c then removeElN el c :: cs else c :: removeElL el cs
end

mutual
/-- In-place mutation of a node reference, rendered structurally:
replace the first preorder occurrence of `a` in the tree by `b`. -/
def replaceFirstN (a b : Node) : Node → Node
  | .root cs => if Node.root cs = a then b else .root (replaceFirstL a b cs)
  | .element t p cs =>
      if Node.element t p cs = a then b else .element t p (replaceFirstL a b cs)
  | .text v => if Node.text v = a then b else .text v
  | .comment v => if Node.comment v = a then b else .comment v
/-- `replaceFirstN` over a forest: rewrite inside the first subtree
containing `a`. -/
def replaceFirstL (a b : Node) : List Node → List Node
  | [] => []
  | c :: cs => if containsN a c then replaceFirstN a b c :: cs else c :: replaceFirstL a b cs
end

/-! ### util.ts: selectors and predicates -/

/-- The regular expression `/fn[-\:]\d+$/` applied to a string: some
suffix of the string is `fn`, then `-` or `:`, then one or more digits
running to the end.  Checked from the right: the trailing digit run
must be non-empty and must be preceded by `-` or `:`, `n`, `f`. -/
def fnIdValid (s : String) : Bool :=
  (!((s.data.reverse.takeWhile Char.isDigit).isEmpty)) &&
    match s.data.reverse.dropWhile Char.isDigit with
    | c0 :: c1 :: c2 :: _ => (c0 == '-' || c0 == ':') && c1 == 'n' && c2 == 'f'
    | _ => false

/-- The footnotes-container selector `.footnotes, [data-footnotes]`:
an element carrying the `data-footnotes` attribute (any value) or the
class token `footnotes`. -/
def isFnContainer (n : Node) : Bool :=
  n.isElement && (n.hasProperty "data-footnotes" || n.hasClass "footnotes")

/-- The `:has([id="targetId"])` test: some proper descendant is an
element whose `id` equals `targetId`. -/
def hasDescWithId (n : Node) (targetId : String) : Bool :=
  (properDescendants n).any (fun d => d.isElement && d.propEq "id" targetId)

/-- `findRef` from util.ts: the first element in document order whose
`href` is `#` followed by the footnote's (stringified) id. -/
def findRef (fn : Node) (tree : Node) : Option Node :=
  selectFirst (fun n => n.isElement && n.propEq "href" ("#" ++ fn.strProp "id")) tree

/-- The container-ancestry half of `isValidFootnote`:
`select('[data-footnotes] [id="x"], .footnotes [id="x"]', tree)` — the
first element with the given id lying strictly below a footnotes
container. -/
def selectIdUnderContainer (targetId : String) (t : Node) : Option Node :=
  ((nodesWithAncestors [] t).find?
    (fun pr => pr.1.isElement && pr.1.propEq "id" targetId && pr.2.any isFnContainer)).map
    (fun pr => pr.1)

/-- `isValidFootnote` from util.ts: id pattern, container ancestry and
an existing reference must all hold. -/
def isValidFootnote (el : Node) (tree : Node) : Bool :=
  let id := el.strProp "id"
  fnIdValid id && (selectIdUnderContainer id tree).isSome &&
    (selectFirst (fun n => n.isElement && n.propEq "href" ("#" ++ id)) tree).isSome

/-- `LOGICAL_SECTION_ELEMENTS` from util.ts. -/
def logicalSectionTags : List String := ["div", "section", "article", "main"]

/-- The candidates of `findLogicalSectionParent`: document-order
elements from the sectioning-tag set whose subtree holds an element
with the target id (`div:has([id="x"]), section:has([id="x"]), …`). -/
def sectionCandidates (targetId : String) (t : Node) : List Node :=
  (allNodes t).filter
    (fun n => n.isElement && logicalSectionTags.contains n.tagOf && hasDescWithId n targetId)

/-- One step of a stable ascending insertion sort on `elDepth · 0`; an
incoming node goes after every node already placed whose depth does not
exceed its own, which reproduces JavaScript's stable `sort(depthSortHelper)`. -/
def insertByDepth (x : Node) : List Node → List Node
  | [] => [x]
  | y :: ys => if elDepth x 0 < elDepth y 0 then x :: y :: ys else y :: insertByDepth x ys

/-- Stable ascending sort by subtree depth (`.sort(depthSortHelper)`). -/
def sortByDepth (l : List Node) : List Node :=
  l.foldl (fun acc x => insertByDepth x acc) []

/-- `findLogicalSectionParent` from util.ts: the first candidate after
the stable depth sort; the tree itself when there is no candidate and
the tree is a root; absent otherwise. -/
def findLogicalSectionParent (idOfEl : String) (tree : Node) : Option Node :=
  let cands := sectionCandidates idOfEl tree
  if cands.isEmpty then (if tree.isRoot then some tree else none)
  else (sortByDepth cands).head?

/-- `BLOCK_ELEMENTS` from util.ts. -/
def blockElements : List String :=
  ["address", "article", "aside", "blockquote", "canvas", "dd", "div", "dl", "dt",
   "fieldset", "figcaption", "figure", "footer", "form", "h1", "h2", "h3", "h4", "h5",
   "h6", "header", "hgroup", "hr", "li", "main", "nav", "noscript", "ol", "output",
   "p", "pre", "section", "table", "tfoot", "ul", "video"]

/-- `findFlowParent` from util.ts: the first element child of the
section whose tag is a block tag and whose subtree holds an element
with the target id. -/
def findFlowParent (idOfEl : String) (section' : Node) : Option Node :=
  section'.childrenOf.find?
    (fun c => c.isElement && blockElements.contains c.tagOf && hasDescWithId c idOfEl)

/-! ### util.ts: the sidenote builder -/

/-- The regular expression `/^\s+$/`: non-empty and all whitespace. -/
def isWhitespaceOnly (s : String) : Bool :=
  (!s.isEmpty) && s.data.all Char.isWhitespace

/-- The filter of `removeStartAndEndWhitespace`: a child is kept unless
it is a pure-whitespace text node sitting at index `0` or at the last
index. -/
def keepChild (len : Nat) (ic : Nat × Node) : Bool :=
  match ic.2 with
  | .text v => if ic.1 != 0 && ic.1 != len - 1 then true else !isWhitespaceOnly v
  | _ => true

/-- The trimmed child list of `removeStartAndEndWhitespace`. -/
def trimChildren (cs : List Node) : List Node :=
  ((cs.enum).filter (keepChild cs.length)).map (fun ic => ic.2)

/-- `setProp key v ps`: JavaScript property assignment on an object
rendered as an association list — overwrite in place, else append. -/
def setProp (key v : String) : List (String × String) → List (String × String)
  | [] => [(key, v)]
  | (k', v') :: ps => if k' = key then (key, v) :: ps else (k', v') :: setProp key v ps

/-- One property added by hastscript's `h`: `className` tokens are
appended to classes already present (selector classes first); any other
property is plain assignment. -/
def addProp (ps : List (String × String)) (kv : String × String) : List (String × String) :=
  if kv.1 = "className" then
    match ps.lookup "className" with
    | some old => setProp "className" (old ++ " " ++ kv.2) ps
    | none => setProp "className" kv.2 ps
  else setProp kv.1 kv.2 ps

/-- The property map built by `h(selector, properties, …)`: the
selector-derived initial properties, then every given property added in
order. -/
def mkProps (init ps : List (String × String)) : List (String × String) :=
  ps.foldl addProp init

/-- `h(tag, props, children)` for a plain tag selector. -/
def hEl (tag : String) (props : List (String × String)) (cs : List Node) : Node :=
  .element tag (mkProps [] props) cs

/-- `removeStartAndEndWhitespace` from util.ts: rebuild the element
with leading/trailing pure-whitespace text children dropped. -/
def removeStartAndEndWhitespace : Node → Node
  | .element t p cs => hEl t p (trimChildren cs)
  | n => n

/-- `wrapInner` from util.ts: wrap an element's children in a fresh
element specified by `wrapper` (whose own children are ignored);
non-elements pass through untouched. -/
def wrapInner (toBeWrapped wrapper : Node) : Node :=
  match toBeWrapped with
  | .element t p cs => hEl t p [hEl wrapper.tagOf wrapper.propsOf cs]
  | n => n

/-- `h('small', { class: 'Sidenote-small' }, [])`. -/
def smallWrapper : Node :=
  .element "small" [("className", "Sidenote-small")] []

/-- `h('sup', { class: 'Sidenote-number' }, fnNum + ' ')`. -/
def supNode (fnNum : String) : Node :=
  .element "sup" [("className", "Sidenote-number")] [.text (fnNum ++ " ")]

/-- The outer element of a sidenote:
`h('aside.Sidenote', { ...footnoteEl.properties, role: 'doc-footnote' }, children)`. -/
def mkAside (props : List (String × String)) (cs : List Node) : Node :=
  .element "aside" (mkProps [("className", "Sidenote")] (setProp "role" "doc-footnote" props)) cs

/-- Replace the first occurrence of `a` in a list by `b` (the visible
effect, on a child list, of mutating the node object `a` in place). -/
def replaceFirstInList (a b : Node) : List Node → List Node
  | [] => []
  | c :: cs => if c = a then b :: cs else c :: replaceFirstInList a b cs

/-- `convertFootnoteToSidenote` from util.ts.  Returns the new sidenote
element *and* the footnote element as it stands afterwards: when the
first trimmed child is an element, the source's
`firstChild.children.unshift(sup)` mutates that child in place — a node
still sitting inside the original tree — so the footnote element itself
changes; otherwise a fresh empty paragraph receives the marker and the
footnote is untouched. -/
def convertFootnoteToSidenote (footnoteEl : Node) (fnNum : String) : Node × Node :=
  let sup := supNode fnNum
  match (removeStartAndEndWhitespace footnoteEl).childrenOf with
  | first :: rest =>
    if first.isElement then
      let first' := first.withChildren (sup :: first.childrenOf)
      let chilluns := first' :: rest
      (mkAside footnoteEl.propsOf
        (Node.text "\n " :: chilluns.map (fun c => wrapInner c smallWrapper) ++ [Node.text "\n "]),
       footnoteEl.withChildren (replaceFirstInList first first' footnoteEl.childrenOf))
    else
      let chilluns := Node.element "p" [] [sup] :: first :: rest
      (mkAside footnoteEl.propsOf
        (Node.text "\n " :: chilluns.map (fun c => wrapInner c smallWrapper) ++ [Node.text "\n "]),
       footnoteEl)
  | [] =>
      let chilluns := [Node.element "p" [] [sup]]
      (mkAside footnoteEl.propsOf
        (Node.text "\n " :: chilluns.map (fun c => wrapInner c smallWrapper) ++ [Node.text "\n "]),
       footnoteEl)

/-! ### main.ts: the transform driver -/

/-- The splice of `transformAndShiftFootnote`:
`children.splice(children.indexOf(parent) + 1, 0, { type: 'text', value: '\n ' }, sidenote)`
(insertion at the front when `indexOf` yields `-1`). -/
def spliceSidenote (cs : List Node) (parent sidenote : Node) : List Node :=
  let pos :=
    match cs.findIdx? (fun c => c == parent) with
    | some i => i + 1
    | none => 0
  cs.take pos ++ Node.text "\n " :: sidenote :: cs.drop pos

/-- The sidenote built for a footnote from its reference's visible
text (`convertFootnoteToSidenote(el, getText(footnoteReference))`). -/
def convertedSidenote (el ref : Node) : Node :=
  (convertFootnoteToSidenote el (getText ref)).1

/-- The footnote element as it stands after the sidenote was built
(the in-place `unshift` of the number marker included). -/
def mutatedFootnote (el ref : Node) : Node :=
  (convertFootnoteToSidenote el (getText ref)).2

/-- The tree as it stands after the sidenote was built: the footnote's
in-place mutation reflected at its position. -/
def treeAfterConvert (el ref tree : Node) : Node :=
  replaceFirstN el (mutatedFootnote el ref) tree

/-- The logical section with the newline text node and the sidenote
spliced in immediately after the flow parent
(`logicalSection.children.splice(idx + 1, 0, …)`). -/
def splicedSection (el ref sec parent : Node) : Node :=
  sec.withChildren (spliceSidenote sec.childrenOf parent (convertedSidenote el ref))

/-- The tree as it stands after the splice: the section mutated in
place — it is either the searched tree itself (the root fallback) or a
node inside it. -/
def treeAfterSplice (el ref tree sec parent : Node) : Node :=
  if sec = treeAfterConvert el ref tree then splicedSection el ref sec parent
  else replaceFirstN sec (splicedSection el ref sec parent) (treeAfterConvert el ref tree)

/-- `transformAndShiftFootnote` from main.ts: validate, locate the
reference, build the sidenote (mutating the footnote's first element
child in place), locate the logical section and flow parent, splice the
sidenote in after the flow parent and remove the footnote.  Any absent
intermediate value aborts, leaving the tree as it stands at that
point. -/
def transformAndShiftFootnote (el tree : Node) : Node :=
  if isValidFootnote el tree then
    match findRef el tree with
    | none => tree
    | some footnoteReference =>
      match findLogicalSectionParent (footnoteReference.strProp "id")
          (treeAfterConvert el footnoteReference tree) with
      | none => treeAfterConvert el footnoteReference tree
      | some logicalSection =>
        match findFlowParent (footnoteReference.strProp "id") logicalSection with
        | none => treeAfterConvert el footnoteReference tree
        | some parent =>
          removeElN (mutatedFootnote el footnoteReference)
            (treeAfterSplice el footnoteReference tree logicalSection parent)
  else tree

mutual
/-- `selectAll('.footnotes li, [data-footnotes] li', tree)`: document
order `li` elements lying strictly below a footnotes container.  The
flag records whether some strict ancestor matched the container
selector. -/
def fnLis (under : Bool) : Node → List Node
  | .root cs => fnLisL under cs
  | .element t p cs =>
      (if under && t == "li" then [Node.element t p cs] else []) ++
        fnLisL (under || isFnContainer (.element t p cs)) cs
  | .text _ => []
  | .comment _ => []
/-- `fnLis` over a forest. -/
def fnLisL (under : Bool) : List Node → List Node
  | [] => []
  | c :: cs => fnLis under c ++ fnLisL under cs
end

/-- The footnote list items of a tree, in document order. -/
def fnListItems (t : Node) : List Node := fnLis false t

/-- `select('.footnotes, [data-footnotes]', tree)`: the first footnotes
container in document order. -/
def findFnContainer (t : Node) : Option Node := selectFirst isFnContainer t

/-- The `forEach` pass of the transformer: every footnote list item,
in reverse document order, run through `transformAndShiftFootnote`. -/
def processFootnotes (tree : Node) : Node :=
  ((fnListItems tree).reverse).foldl (fun acc el => transformAndShiftFootnote el acc) tree

/-- `transformer` from main.ts, paired with its warning signal: after
the per-footnote pass, remove the (first) footnotes container when no
footnote list item remains, otherwise leave the tree as is and warn. -/
def transformerRun (tree : Node) : Node × Bool :=
  let t1 := processFootnotes tree
  if (fnListItems t1).isEmpty then
    match findFnContainer t1 with
    | some fnSection => (removeElN fnSection t1, false)
    | none => (t1, false)
  else (t1, true)

/-- The tree returned by `transformer`. -/
def transformer (tree : Node) : Node := (transformerRun tree).1

/-- Whether `transformer` signals the “some footnotes were not
transformed” warning. -/
def transformerWarned (tree : Node) : Bool := (transformerRun tree).2

/-! ### maybe.ts: the short-circuit sequencing primitive -/

/-- A generator-style step procedure: it either finishes with a result,
or yields a possibly-absent intermediate value and waits to be resumed
with the present value. -/
inductive GenStep (β ρ : Type) where
  | done (result : ρ)
  | yield (value : Option β) (next : β → GenStep β ρ)

/-- The `do … while (!next.done)` loop of `maybeDo` from its second
iteration onwards: once the procedure was resumed at least once, the
loop guard `while (!next.done)` runs *before* the body's
`if (next.done) return next.value`, so the moment the procedure
finishes the loop is exited and the function falls through, returning
nothing — the final result is dropped.  An absent yielded value still
returns nothing, and a present one is fed back in. -/
def maybeDoResume {β ρ : Type} : GenStep β ρ → Option ρ
  | .done _ => none
  | .yield none _ => none
  | .yield (some v) k => maybeDoResume (k v)

/-- `maybeDo` from maybe.ts: the first `generator.next()` is inspected
inside the loop body, so a procedure that finishes without yielding
returns its final result, and a first yielded absent value returns
nothing; after a present yielded value is fed back, control is with the
loop whose guard precedes the body's return (`maybeDoResume`), so the
final result of any procedure that yielded at least once is dropped. -/
def maybeDo {β ρ : Type} : GenStep β ρ → Option ρ
  | .done r => some r
  | .yield none _ => none
  | .yield (some v) k => maybeDoResume (k v)

/-- A straight-line procedure built from a list of dependent lookups:
each step yields `f` applied to the value produced so far, and the
final result maps `finish` over the last value. -/
def ofSteps {β ρ : Type} (fs : List (β → Option β)) (start : β) (finish : β → ρ) : GenStep β ρ :=
  match fs with
  | [] => .done (finish start)
  | f :: rest => .yield (f start) (fun v => ofSteps rest v finish)

/-! ### Statement-side definitions -/

/-- `isElement(children[0])` with JavaScript semantics: `false` on an
empty list (indexing past the end yields `undefined`). -/
def headIsElement : List Node → Bool
  | [] => false
  | c :: _ => c.isElement

/-- Number of footnotes containers inside a subtree (the node itself
included). -/
def cntFC (t : Node) : Nat := (allNodes t).countP isFnContainer

/-- Number of footnotes containers inside a forest. -/
def cntFCL (cs : List Node) : Nat := (allNodesL cs).countP isFnContainer

/-- The footnote-id pattern as the specification words it: some
(possibly empty) prefix, then `fn`, then `-` or `:`, then one or more
digits running to the end of the string. -/
def SpecIdPattern (s : String) : Prop :=
  ∃ (pre : List Char) (sep : Char) (ds : List Char),
    (sep = '-' ∨ sep = ':') ∧ ds ≠ [] ∧ (∀ c ∈ ds, c.isDigit = true) ∧
    s.data = pre ++ 'f' :: 'n' :: sep :: ds

/-- Container ancestry as the specification words it: some element with
the given id is a proper descendant of a footnotes container in the
tree. -/
def SpecInContainer (targetId : String) (t : Node) : Prop :=
  ∃ c ∈ allNodes t, isFnContainer c = true ∧
    ∃ d ∈ properDescendants c, d.isElement = true ∧ d.propEq "id" targetId = true

/-- An existing reference as the specification words it: some element
of the tree has `href` equal to `#` followed by the id. -/
def SpecHasRef (targetId : String) (t : Node) : Prop :=
  ∃ n ∈ allNodes t, n.isElement = true ∧ n.propEq "href" ("#" ++ targetId) = true

/-! ### Supporting lemmas -/

/-- Once inside the loop, a straight-line procedure never delivers its
final result: every remaining path ends in the guard-exit (final value
dropped) or in an absent yielded value. -/
theorem maybeDoResume_ofSteps {β ρ : Type} : ∀ (fs : List (β → Option β)) (start : β)
    (finish : β → ρ), maybeDoResume (ofSteps fs start finish) = none
  | [], _, _ => rfl
  | f :: rest, start, finish => by
      cases h : f start with
      | none => simp [ofSteps, maybeDoResume, h]
      | some v => simp [ofSteps, maybeDoResume, h, maybeDoResume_ofSteps rest v finish]

/-! ### Claim C9 -/

/-- **C9, code bug.**  The claim (and maybe.ts's own comments — “If
we're done, return the value.”, “@returns The last yielded value or
undefined”) say that when every yielded value is present `maybeDo`
returns the procedure's final result.  The code does so only for a
procedure that finishes without yielding at all: after any resume the
`do … while (!next.done)` guard exits the loop before the body's
`return next.value` can run, and the function falls through, dropping
the final result.  Over straight-line procedures: the zero-step
procedure returns its final result, but every procedure with at least
one step returns nothing — in particular at the failing input, a single
always-present step, whose yielded value (`some 1`) is present and
whose final result is nevertheless discarded. -/
theorem c9_maybeDo_drops_final_result :
    (∀ (β ρ : Type) (start : β) (finish : β → ρ),
        maybeDo (ofSteps [] start finish) = some (finish start)) ∧
    (∀ (β ρ : Type) (f : β → Option β) (fs : List (β → Option β)) (start : β) (finish : β → ρ),
        maybeDo (ofSteps (f :: fs) start finish) = none) ∧
    ((fun n : Nat => some (n + 1)) 0).isSome = true ∧
    maybeDo (ofSteps [fun n => some (n + 1)] (0 : Nat) (fun n => n)) = none := by
  refine ⟨fun _ _ _ _ => rfl, ?_, rfl, rfl⟩
  intro β ρ f fs start finish
  cases h : f start with
  | none => simp [ofSteps, maybeDo, h]
  | some v => simp [ofSteps, maybeDo, h, maybeDoResume_ofSteps fs v finish]

/-! ### Claim C3 -/

/-- On elements — the only kind the source ever passes — the children
of `removeStartAndEndWhitespace` are the trimmed original children. -/
theorem removeStartAndEndWhitespace_childrenOf (t : String) (p : List (String × String))
    (cs : List Node) :
    (removeStartAndEndWhitespace (.element t p cs)).childrenOf = trimChildren cs := by
  rfl

/-- **C3, counterexample.**  For the bare-text footnote
`<li id="fn-1">hello</li>`, the converted sidenote does *not* place the
original content inside the synthetic paragraph: the text stays a
direct child of the `aside`, outside every element child (in
particular outside the synthetic paragraph, which only receives the
number marker). -/
theorem c3_counterexample :
    Node.text "hello" ∈
      ((convertFootnoteToSidenote (.element "li" [("id", "fn-1")] [.text "hello"]) "1").1).childrenOf ∧
    ∀ c ∈ ((convertFootnoteToSidenote (.element "li" [("id", "fn-1")] [.text "hello"]) "1").1).childrenOf,
      c.isElement = true → Node.text "hello" ∉ allNodes c := by
  decide

/-- **C3, amended.**  When the first trimmed child of a footnote is not
an element (or there is none), `convertFootnoteToSidenote` *prepends a
fresh empty paragraph* which receives only the sidenote-number marker;
the footnote's remaining content follows that paragraph as siblings
(each wrapped by `wrapInner` individually), rather than being wrapped
inside it.  The “first child is an element” invariant does hold — the
synthetic paragraph is the first of the wrapped children — and in this
branch the footnote element itself is returned unchanged. -/
theorem c3_amended_prepends_empty_paragraph (el : Node) (fnNum : String)
    (h : headIsElement ((removeStartAndEndWhitespace el).childrenOf) = false) :
    (convertFootnoteToSidenote el fnNum).1 =
      mkAside el.propsOf
        (Node.text "\n " ::
          Node.element "p" [] [Node.element "small" [("className", "Sidenote-small")] [supNode fnNum]] ::
          (((removeStartAndEndWhitespace el).childrenOf).map (fun c => wrapInner c smallWrapper)
            ++ [Node.text "\n "])) ∧
    (convertFootnoteToSidenote el fnNum).2 = el := by
  unfold convertFootnoteToSidenote
  cases h' : (removeStartAndEndWhitespace el).childrenOf with
  | nil => exact ⟨rfl, rfl⟩
  | cons first rest =>
      rw [h'] at h
      simp only [headIsElement] at h
      simp [h, wrapInner, hEl, smallWrapper, mkProps, addProp, setProp, Node.tagOf, Node.propsOf]

/-- **C3, witness.**  The amended statement instantiated at the
bare-text footnote `<li id="fn-1">hello</li>` with label `1`. -/
theorem c3_witness :
    headIsElement ((removeStartAndEndWhitespace (Node.element "li" [("id", "fn-1")] [.text "hello"])).childrenOf) = false ∧
    ((convertFootnoteToSidenote (.element "li" [("id", "fn-1")] [.text "hello"]) "1").1 =
      mkAside (Node.element "li" [("id", "fn-1")] [.text "hello"]).propsOf
        (Node.text "\n " ::
          Node.element "p" [] [Node.element "small" [("className", "Sidenote-small")] [supNode "1"]] ::
          ((((removeStartAndEndWhitespace (Node.element "li" [("id", "fn-1")] [.text "hello"])).childrenOf).map
              (fun c => wrapInner c smallWrapper)) ++ [Node.text "\n "])) ∧
      (convertFootnoteToSidenote (.element "li" [("id", "fn-1")] [.text "hello"]) "1").2 =
        Node.element "li" [("id", "fn-1")] [.text "hello"]) :=
  ⟨by decide, c3_amended_prepends_empty_paragraph _ "1" (by decide)⟩

/-! ### Claim C4 -/

/-- **C4, counterexample.**  A valid footnote whose reference link
carries no `id`: validation and reference lookup succeed, the sidenote
is built, but the flow-parent lookup (over the reference id, which
stringifies to `"undefined"`) fails, so the footnote is rejected — no
sidenote is inserted anywhere and the footnote item stays in the tree —
yet the tree *is* modified: building the sidenote already mutated the
footnote's first element child in place (prepending the number
marker). -/
theorem c4_counterexample :
    isValidFootnote (.element "li" [("id", "fn-1")] [.element "p" [] [.text "n"]])
      (.root
        [.element "div" [] [.element "p" [] [.element "a" [("href", "#fn-1")] [.text "1"]]],
         .element "div" [("data-footnotes", "")]
           [.element "ol" [] [.element "li" [("id", "fn-1")] [.element "p" [] [.text "n"]]]]]) = true ∧
    (∀ n ∈ allNodes (transformAndShiftFootnote
        (.element "li" [("id", "fn-1")] [.element "p" [] [.text "n"]])
        (.root
          [.element "div" [] [.element "p" [] [.element "a" [("href", "#fn-1")] [.text "1"]]],
           .element "div" [("data-footnotes", "")]
             [.element "ol" [] [.element "li" [("id", "fn-1")] [.element "p" [] [.text "n"]]]]])),
      n.tagOf ≠ "aside") ∧
    fnListItems (transformAndShiftFootnote
        (.element "li" [("id", "fn-1")] [.element "p" [] [.text "n"]])
        (.root
          [.element "div" [] [.element "p" [] [.element "a" [("href", "#fn-1")] [.text "1"]]],
           .element "div" [("data-footnotes", "")]
             [.element "ol" [] [.element "li" [("id", "fn-1")] [.element "p" [] [.text "n"]]]]])) ≠ [] ∧
    transformAndShiftFootnote
        (.element "li" [("id", "fn-1")] [.element "p" [] [.text "n"]])
        (.root
          [.element "div" [] [.element "p" [] [.element "a" [("href", "#fn-1")] [.text "1"]]],
           .element "div" [("data-footnotes", "")]
             [.element "ol" [] [.element "li" [("id", "fn-1")] [.element "p" [] [.text "n"]]]]]) ≠
      .root
        [.element "div" [] [.element "p" [] [.element "a" [("href", "#fn-1")] [.text "1"]]],
         .element "div" [("data-footnotes", "")]
           [.element "ol" [] [.element "li" [("id", "fn-1")] [.element "p" [] [.text "n"]]]]] := by
  decide

/-- **C4, amended.**  Rejections at steps 1–2 (validation, reference
lookup) really do leave the tree untouched; only rejections occurring
after the sidenote-building step can leave a residual mutation (the
counterexample above), because building the sidenote is not pure
construction. -/
theorem c4_amended_early_rejections_pure (el tree : Node) :
    (isValidFootnote el tree = false → transformAndShiftFootnote el tree = tree) ∧
    (findRef el tree = none → transformAndShiftFootnote el tree = tree) := by
  constructor
  · intro h
    simp [transformAndShiftFootnote, h]
  · intro h
    by_cases hv : isValidFootnote el tree <;> simp [transformAndShiftFootnote, hv, h]

/-- **C4, witness.**  The amended statement instantiated at a text node
(no valid id, no reference) inside an empty root. -/
theorem c4_witness :
    (isValidFootnote (Node.text "x") (.root []) = false ∧
      transformAndShiftFootnote (Node.text "x") (.root []) = .root []) ∧
    (findRef (Node.text "x") (.root []) = none ∧
      transformAndShiftFootnote (Node.text "x") (.root []) = .root []) :=
  ⟨⟨by decide, (c4_amended_early_rejections_pure _ _).1 (by decide)⟩,
   ⟨by decide, (c4_amended_early_rejections_pure _ _).2 (by decide)⟩⟩

/-! ### Membership in traversals -/

/-- Every tree occurs in its own preorder listing. -/
theorem mem_allNodes_self (t : Node) : t ∈ allNodes t := by
  cases t <;> simp [allNodes]

/-! ### Claim C8 -/

mutual
/-- A non-empty footnote-item collection forces either an already-seen
container ancestor or a container inside the subtree. -/
theorem fnLis_container : ∀ (under : Bool) (t : Node), fnLis under t ≠ [] →
    under = true ∨ ∃ c ∈ allNodes t, isFnContainer c = true
  | under, .root cs, h => by
      rcases fnLisL_container under cs (by simpa [fnLis] using h) with h' | ⟨c, hc, hcc⟩
      · exact Or.inl h'
      · exact Or.inr ⟨c, by simp [allNodes, hc], hcc⟩
  | under, .element t p cs, h => by
      by_cases hu : under = true
      · exact Or.inl hu
      · have hu' : under = false := by simpa using hu
        subst hu'
        have hne : fnLisL (false || isFnContainer (.element t p cs)) cs ≠ [] := by
          simpa [fnLis] using h
        rcases fnLisL_container _ cs hne with h' | ⟨c, hc, hcc⟩
        · refine Or.inr ⟨.element t p cs, mem_allNodes_self _, ?_⟩
          simpa using h'
        · exact Or.inr ⟨c, by simp [allNodes, hc], hcc⟩
  | _, .text _, h => by simp [fnLis] at h
  | _, .comment _, h => by simp [fnLis] at h
/-- `fnLis_container` over a forest. -/
theorem fnLisL_container : ∀ (under : Bool) (cs : List Node), fnLisL under cs ≠ [] →
    under = true ∨ ∃ c ∈ allNodesL cs, isFnContainer c = true
  | under, [], h => by simp [fnLisL] at h
  | under, c :: cs, h => by
      rw [fnLisL] at h
      by_cases h1 : fnLis under c = []
      · have h2 : fnLisL under cs ≠ [] := fun h2 => h (by simp [h1, h2])
        rcases fnLisL_container under cs h2 with h' | ⟨d, hd, hdd⟩
        · exact Or.inl h'
        · exact Or.inr ⟨d, by simp [allNodesL, hd], hdd⟩
      · rcases fnLis_container under c h1 with h' | ⟨d, hd, hdd⟩
        · exact Or.inl h'
        · exact Or.inr ⟨d, by simp [allNodesL, hd], hdd⟩
end

/-- With no footnotes container in the tree, there are no footnote list
items either (a list item only matches strictly below a container). -/
theorem fnListItems_nil_of_no_container (t : Node) (h : findFnContainer t = none) :
    fnListItems t = [] := by
  by_contra hne
  rcases fnLis_container false t hne with h' | ⟨c, hc, hcc⟩
  · exact Bool.false_ne_true h'
  · have := List.find?_eq_none.mp h c hc
    exact this hcc

/-- A tree with no footnotes container is a fixed point of the
transformer, and no warning is raised on it. -/
theorem transformer_noop_of_no_container (t : Node) (h : findFnContainer t = none) :
    transformer t = t ∧ transformerWarned t = false := by
  have hl : fnListItems t = [] := fnListItems_nil_of_no_container t h
  have hp : processFootnotes t = t := by simp [processFootnotes, hl]
  constructor
  · simp [transformer, transformerRun, hp, hl, h]
  · simp [transformerWarned, transformerRun, hp, hl, h]

/-- **C8, counterexample.**  The transform is not idempotent: on a tree
with two (empty) footnotes containers the first run removes only the
first container, and the second run removes the second, so running the
transform twice differs from running it once. -/
theorem c8_counterexample :
    transformer (transformer (.root
      [.element "div" [("data-footnotes", "")] [],
       .element "div" [("data-footnotes", "")] []])) ≠
    transformer (.root
      [.element "div" [("data-footnotes", "")] [],
       .element "div" [("data-footnotes", "")] []]) := by
  decide

/-- **C8, amended.**  The second run is a no-op whenever the first run
leaves no footnotes container behind (in particular when the input had
at most one container and every footnote was converted): with no
container there are no footnote items, and the transformed tree is
returned unchanged. -/
theorem c8_amended_idempotent_without_container (tree : Node)
    (h : findFnContainer (transformer tree) = none) :
    transformer (transformer tree) = transformer tree :=
  (transformer_noop_of_no_container _ h).1

/-- **C8, witness.**  A single-container document: after the first run
the container is gone, and the second run returns the tree unchanged. -/
theorem c8_witness :
    findFnContainer (transformer (.root
      [.element "p" [] [], .element "div" [("data-footnotes", "")] []])) = none ∧
    transformer (transformer (.root
      [.element "p" [] [], .element "div" [("data-footnotes", "")] []])) =
      transformer (.root [.element "p" [] [], .element "div" [("data-footnotes", "")] []]) :=
  ⟨by decide, c8_amended_idempotent_without_container _ (by decide)⟩

/-! ### Counting footnotes containers (claims C7 and C10) -/

/-- Preorder listing distributes over forest concatenation. -/
theorem allNodesL_append : ∀ (as bs : List Node),
    allNodesL (as ++ bs) = allNodesL as ++ allNodesL bs
  | [], _ => rfl
  | a :: as, bs => by simp [allNodesL, allNodesL_append as bs]

theorem cntFCL_append (as bs : List Node) : cntFCL (as ++ bs) = cntFCL as + cntFCL bs := by
  simp [cntFCL, allNodesL_append, List.countP_append]

theorem cntFCL_cons (c : Node) (cs : List Node) : cntFCL (c :: cs) = cntFC c + cntFCL cs := by
  simp [cntFCL, cntFC, allNodesL, List.countP_append]

theorem cntFC_root (cs : List Node) : cntFC (.root cs) = cntFCL cs := by
  simp [cntFC, cntFCL, allNodes, List.countP_cons, isFnContainer, Node.isElement]

/-- Whether an element is a footnotes container does not depend on its
children. -/
theorem isFnContainer_children_irrel (t : String) (p : List (String × String))
    (cs ds : List Node) :
    isFnContainer (.element t p cs) = isFnContainer (.element t p ds) := by
  simp [isFnContainer, Node.isElement, Node.hasProperty, Node.hasClass, Node.classTokens,
    Node.getProp, Node.propsOf]

theorem cntFC_element (t : String) (p : List (String × String)) (cs : List Node) :
    cntFC (.element t p cs) =
      cntFCL cs + (if isFnContainer (.element t p cs) then 1 else 0) := by
  simp [cntFC, cntFCL, allNodes, List.countP_cons]

/-- A container contributes at least one to the container count of its
own subtree. -/
theorem cntFC_pos (c : Node) (h : isFnContainer c = true) : 1 ≤ cntFC c := by
  exact List.countP_pos_iff.mpr ⟨c, mem_allNodes_self c, h⟩

/-- Erasing a member from a child list removes exactly that subtree's
containers from the forest count. -/
theorem erase_cntFCL (el : Node) (cs : List Node) (h : el ∈ cs) :
    cntFCL (cs.erase el) + cntFC el = cntFCL cs := by
  obtain ⟨l1, l2, _, hdecomp, herase⟩ := List.exists_erase_eq h
  rw [herase, hdecomp, cntFCL_append, cntFCL_append, cntFCL_cons]
  omega

mutual
/-- `removeEl` removes exactly the containers of the removed subtree:
when the element has a parent in the tree, the container count drops by
the container count of the removed subtree (removal rebuilds the path
to the parent, but a node's containerness does not depend on its
children, so path nodes keep their status). -/
theorem removeElN_cntFC : ∀ (el t : Node), hasParN el t = true →
    cntFC (removeElN el t) + cntFC el = cntFC t
  | el, .root cs, h => by
      rw [hasParN] at h
      cases hceq : cs.contains el with
      | true =>
          have hmem : el ∈ cs := by simpa using hceq
          rw [removeElN, if_pos hceq, cntFC_root, cntFC_root]
          exact erase_cntFCL el cs hmem
      | false =>
          have hp : hasParL el cs = true := by rw [hceq] at h; simpa using h
          rw [removeElN, if_neg (by rw [hceq]; simp), cntFC_root, cntFC_root]
          exact removeElL_cntFC el cs hp
  | el, .element t p cs, h => by
      rw [hasParN] at h
      cases hceq : cs.contains el with
      | true =>
          have hmem : el ∈ cs := by simpa using hceq
          rw [removeElN, if_pos hceq, cntFC_element, cntFC_element,
            isFnContainer_children_irrel t p (cs.erase el) cs]
          have := erase_cntFCL el cs hmem
          omega
      | false =>
          have hp : hasParL el cs = true := by rw [hceq] at h; simpa using h
          rw [removeElN, if_neg (by rw [hceq]; simp), cntFC_element, cntFC_element,
            isFnContainer_children_irrel t p (removeElL el cs) cs]
          have := removeElL_cntFC el cs hp
          omega
  | _, .text _, h => by rw [hasParN] at h; exact absurd h (by simp)
  | _, .comment _, h => by rw [hasParN] at h; exact absurd h (by simp)
/-- `removeElN_cntFC` over the child loop. -/
theorem removeElL_cntFC : ∀ (el : Node) (cs : List Node), hasParL el cs = true →
    cntFCL (removeElL el cs) + cntFC el = cntFCL cs
  | el, [], h => by rw [hasParL] at h; exact absurd h (by simp)
  | el, c :: cs, h => by
      rw [hasParL] at h
      cases hceq : (c.isElement && hasParN el c) with
      | true =>
          have hpar : hasParN el c = true := by
            have h' := hceq
            simp at h'
            exact h'.2
          rw [removeElL, if_pos hceq, cntFCL_cons, cntFCL_cons]
          have := removeElN_cntFC el c hpar
          omega
      | false =>
          have hp : hasParL el cs = true := by rw [hceq] at h; simpa using h
          rw [removeElL, if_neg (by rw [hceq]; simp), cntFCL_cons, cntFCL_cons]
          have := removeElL_cntFC el cs hp
          omega
end

/-- `find?` returns the first match: the list splits at the found
element with no match before it. -/
theorem find?_decomp {α : Type} (p : α → Bool) : ∀ (l : List α) (a : α), l.find? p = some a →
    ∃ l1 l2, l = l1 ++ a :: l2 ∧ ∀ x ∈ l1, p x = false
  | [], a, h => by simp at h
  | x :: xs, a, h => by
      by_cases hx : p x = true
      · rw [List.find?_cons_of_pos _ hx] at h
        exact ⟨[], xs, by simp [← Option.some_inj.mp h], by simp⟩
      · rw [List.find?_cons_of_neg _ (by simpa using hx)] at h
        obtain ⟨l1, l2, hdec, hfail⟩ := find?_decomp p xs a h
        exact ⟨x :: l1, l2, by simp [hdec], by
          intro y hy
          rcases List.mem_cons.mp hy with rfl | hy'
          · simpa using hx
          · exact hfail y hy'⟩

/-! ### Claim C7 -/

/-- **C7.**  After the transform has attempted every footnote (the tree
being `processFootnotes tree`), the footnotes container is removed iff
no footnote list item remains: when items remain the tree is returned
as is, nothing is removed, and the non-fatal warning is signalled; when
none remain, no warning is raised and the first container — when one
exists and has a parent in the tree — really is removed, dropping the
container count by exactly the removed subtree's (positive) container
count; with no container left the processed tree is returned
unchanged. -/
theorem c7_container_cleanup (tree : Node) :
    (fnListItems (processFootnotes tree) ≠ [] →
       transformer tree = processFootnotes tree ∧ transformerWarned tree = true) ∧
    (fnListItems (processFootnotes tree) = [] →
       transformerWarned tree = false ∧
       (∀ c, findFnContainer (processFootnotes tree) = some c →
          transformer tree = removeElN c (processFootnotes tree) ∧
          1 ≤ cntFC c ∧
          (hasParN c (processFootnotes tree) = true →
             cntFC (transformer tree) + cntFC c = cntFC (processFootnotes tree))) ∧
       (findFnContainer (processFootnotes tree) = none →
          transformer tree = processFootnotes tree)) := by
  constructor
  · intro hne
    have hemp : (fnListItems (processFootnotes tree)).isEmpty = false := by
      simpa [List.isEmpty_iff] using hne
    exact ⟨by simp [transformer, transformerRun, hemp],
           by simp [transformerWarned, transformerRun, hemp]⟩
  · intro hnil
    have hemp : (fnListItems (processFootnotes tree)).isEmpty = true := by
      simp [List.isEmpty_iff, hnil]
    refine ⟨?_, ?_, ?_⟩
    · cases hf : findFnContainer (processFootnotes tree) <;>
        simp [transformerWarned, transformerRun, hemp, hf]
    · intro c hc
      have htr : transformer tree = removeElN c (processFootnotes tree) := by
        simp [transformer, transformerRun, hemp, hc]
      refine ⟨htr, ?_, ?_⟩
      · exact cntFC_pos c (List.find?_some hc)
      · intro hpar
        rw [htr]
        exact removeElN_cntFC c _ hpar
    · intro hf
      simp [transformer, transformerRun, hemp, hf]

/-- **C7, witness.**  Both branches instantiated: a tree whose sole
footnote item fails validation (container kept, warning raised), and a
tree with an empty container (no warning, container removed with its
count dropping from one to zero). -/
theorem c7_witness :
    (fnListItems (processFootnotes (Node.root
        [.element "div" [("data-footnotes", "")]
          [.element "ol" [] [.element "li" [("id", "bad")] []]]])) ≠ [] ∧
      transformer (Node.root
        [.element "div" [("data-footnotes", "")]
          [.element "ol" [] [.element "li" [("id", "bad")] []]]]) =
        processFootnotes (Node.root
          [.element "div" [("data-footnotes", "")]
            [.element "ol" [] [.element "li" [("id", "bad")] []]]]) ∧
      transformerWarned (Node.root
        [.element "div" [("data-footnotes", "")]
          [.element "ol" [] [.element "li" [("id", "bad")] []]]]) = true) ∧
    (fnListItems (processFootnotes (Node.root
        [.element "p" [] [], .element "div" [("data-footnotes", "")] [.element "ol" [] []]])) = [] ∧
      findFnContainer (processFootnotes (Node.root
        [.element "p" [] [], .element "div" [("data-footnotes", "")] [.element "ol" [] []]])) =
        some (.element "div" [("data-footnotes", "")] [.element "ol" [] []]) ∧
      hasParN (.element "div" [("data-footnotes", "")] [.element "ol" [] []])
        (processFootnotes (Node.root
          [.element "p" [] [], .element "div" [("data-footnotes", "")] [.element "ol" [] []]])) = true ∧
      transformer (Node.root
        [.element "p" [] [], .element "div" [("data-footnotes", "")] [.element "ol" [] []]]) =
        removeElN (.element "div" [("data-footnotes", "")] [.element "ol" [] []])
          (processFootnotes (Node.root
            [.element "p" [] [], .element "div" [("data-footnotes", "")] [.element "ol" [] []]])) ∧
      cntFC (transformer (Node.root
        [.element "p" [] [], .element "div" [("data-footnotes", "")] [.element "ol" [] []]])) + 1 =
        cntFC (processFootnotes (Node.root
          [.element "p" [] [], .element "div" [("data-footnotes", "")] [.element "ol" [] []]]))) := by
  constructor
  · have h := (c7_container_cleanup (Node.root
      [.element "div" [("data-footnotes", "")]
        [.element "ol" [] [.element "li" [("id", "bad")] []]]])).1 (by decide)
    exact ⟨by decide, h.1, h.2⟩
  · have h := ((c7_container_cleanup (Node.root
      [.element "p" [] [], .element "div" [("data-footnotes", "")] [.element "ol" [] []]])).2
      (by decide)).2.1 (.element "div" [("data-footnotes", "")] [.element "ol" [] []]) (by decide)
    refine ⟨by decide, by decide, by decide, h.1, ?_⟩
    have hcnt := h.2.2 (by decide)
    have hone : cntFC (Node.element "div" [("data-footnotes", "")] [.element "ol" [] []]) = 1 := by
      decide
    omega

/-! ### Claim C10 -/

/-- **C10.**  A tree holding no footnote list items at all (for example
one whose containers are all empty): the transform still removes the
first footnotes container in document order even though no footnote was
converted during the pass — `findFnContainer` picks the document-order
first container (nothing before it matches), the result is exactly
`removeEl` of that container, exactly its subtree's containers
disappear from the count, and any later container is untouched by the
pass (only this one removal happens). -/
theorem c10_empty_container_removed (t c : Node)
    (hl : fnListItems t = []) (hc : findFnContainer t = some c) :
    transformer t = removeElN c t ∧
    (∃ l1 l2, allNodes t = l1 ++ c :: l2 ∧ ∀ x ∈ l1, isFnContainer x = false) ∧
    1 ≤ cntFC c ∧
    (hasParN c t = true → cntFC (transformer t) + cntFC c = cntFC t) := by
  have hp : processFootnotes t = t := by simp [processFootnotes, hl]
  have hemp : (fnListItems t).isEmpty = true := by simp [List.isEmpty_iff, hl]
  have htr : transformer t = removeElN c t := by
    simp [transformer, transformerRun, hp, hemp, hc]
  refine ⟨htr, ?_, cntFC_pos c (List.find?_some hc), ?_⟩
  · exact find?_decomp isFnContainer (allNodes t) c hc
  · intro hpar
    rw [htr]
    exact removeElN_cntFC c t hpar

/-- **C10, witness.**  Two empty containers (one class-based, one
attribute-based): the first in document order is the one removed. -/
theorem c10_witness :
    fnListItems (Node.root
      [.element "div" [("className", "footnotes")] [],
       .element "section" [("data-footnotes", "")] []]) = [] ∧
    findFnContainer (Node.root
      [.element "div" [("className", "footnotes")] [],
       .element "section" [("data-footnotes", "")] []]) =
      some (.element "div" [("className", "footnotes")] []) ∧
    (transformer (Node.root
      [.element "div" [("className", "footnotes")] [],
       .element "section" [("data-footnotes", "")] []]) =
      removeElN (.element "div" [("className", "footnotes")] [])
        (Node.root
          [.element "div" [("className", "footnotes")] [],
           .element "section" [("data-footnotes", "")] []]) ∧
     (∃ l1 l2, allNodes (Node.root
        [.element "div" [("className", "footnotes")] [],
         .element "section" [("data-footnotes", "")] []]) =
          l1 ++ (.element "div" [("className", "footnotes")] []) :: l2 ∧
          ∀ x ∈ l1, isFnContainer x = false) ∧
     1 ≤ cntFC (.element "div" [("className", "footnotes")] []) ∧
     (hasParN (.element "div" [("className", "footnotes")] [])
        (Node.root
          [.element "div" [("className", "footnotes")] [],
           .element "section" [("data-footnotes", "")] []]) = true →
        cntFC (transformer (Node.root
          [.element "div" [("className", "footnotes")] [],
           .element "section" [("data-footnotes", "")] []])) +
          cntFC (.element "div" [("className", "footnotes")] []) =
          cntFC (Node.root
            [.element "div" [("className", "footnotes")] [],
             .element "section" [("data-footnotes", "")] []]))) :=
  ⟨by decide, by decide,
   c10_empty_container_removed _ _ (by decide) (by decide)⟩

/-! ### Subtree containment and in-place replacement -/

mutual
/-- `containsN` decides membership in the preorder listing. -/
theorem containsN_iff : ∀ (a t : Node), containsN a t = true ↔ a ∈ allNodes t
  | a, .root cs => by
      rw [containsN, allNodes]
      simp only [Bool.or_eq_true, decide_eq_true_eq, List.mem_cons,
        containsL_iff a cs, @eq_comm Node a]
  | a, .element t p cs => by
      rw [containsN, allNodes]
      simp only [Bool.or_eq_true, decide_eq_true_eq, List.mem_cons,
        containsL_iff a cs, @eq_comm Node a]
  | a, .text v => by
      rw [containsN, allNodes]
      simp [eq_comm]
  | a, .comment v => by
      rw [containsN, allNodes]
      simp [eq_comm]
/-- `containsL` decides membership in the forest's preorder listing. -/
theorem containsL_iff : ∀ (a : Node) (cs : List Node), containsL a cs = true ↔ a ∈ allNodesL cs
  | a, [] => by rw [containsL, allNodesL]; simp
  | a, c :: cs => by
      rw [containsL, allNodesL]
      simp [containsN_iff a c, containsL_iff a cs]
end

mutual
/-- Replacing an occurring node puts the replacement into the tree. -/
theorem replaceFirstN_mem : ∀ (a b t : Node), containsN a t = true →
    b ∈ allNodes (replaceFirstN a b t)
  | a, b, .root cs, h => by
      rw [replaceFirstN]
      by_cases he : Node.root cs = a
      · rw [if_pos he]; exact mem_allNodes_self b
      · rw [if_neg he]
        rw [containsN] at h
        have hl : containsL a cs = true := by
          simpa [he] using h
        have := replaceFirstL_mem a b cs hl
        rw [allNodes]
        exact List.mem_cons_of_mem _ this
  | a, b, .element t p cs, h => by
      rw [replaceFirstN]
      by_cases he : Node.element t p cs = a
      · rw [if_pos he]; exact mem_allNodes_self b
      · rw [if_neg he]
        rw [containsN] at h
        have hl : containsL a cs = true := by
          simpa [he] using h
        have := replaceFirstL_mem a b cs hl
        rw [allNodes]
        exact List.mem_cons_of_mem _ this
  | a, b, .text v, h => by
      rw [containsN] at h
      have he : Node.text v = a := by simpa using h
      rw [replaceFirstN, if_pos he]
      exact mem_allNodes_self b
  | a, b, .comment v, h => by
      rw [containsN] at h
      have he : Node.comment v = a := by simpa using h
      rw [replaceFirstN, if_pos he]
      exact mem_allNodes_self b
/-- `replaceFirstN_mem` over a forest. -/
theorem replaceFirstL_mem : ∀ (a b : Node) (cs : List Node), containsL a cs = true →
    b ∈ allNodesL (replaceFirstL a b cs)
  | a, b, [], h => by rw [containsL] at h; exact absurd h (by simp)
  | a, b, c :: cs, h => by
      rw [containsL] at h
      rw [replaceFirstL]
      cases hc : containsN a c with
      | true =>
          rw [if_pos rfl]
          have := replaceFirstN_mem a b c hc
          rw [allNodesL]
          exact List.mem_append_left _ this
      | false =>
          rw [if_neg (by simp)]
          have hl : containsL a cs = true := by simpa [hc] using h
          have := replaceFirstL_mem a b cs hl
          rw [allNodesL]
          exact List.mem_append_right _ this
end

/-! ### The splice -/

/-- `indexOf` via `findIdx?`: the first occurrence of `x` sits right
after a prefix free of `x`. -/
theorem findIdx?_first (x : Node) : ∀ (l m : List Node), x ∉ l →
    (l ++ x :: m).findIdx? (fun c => c == x) = some l.length
  | [], m, _ => by simp
  | y :: ys, m, h => by
      have hxy : ¬x = y := fun he => h (by simp [he])
      have hy : (y == x) = false := by
        simp only [beq_eq_false_iff_ne, ne_eq]
        exact fun he => hxy he.symm
      have hys : x ∉ ys := fun hm => h (List.mem_cons_of_mem _ hm)
      rw [List.cons_append, List.findIdx?_cons, hy]
      simp [findIdx?_first x ys m hys]

/-- The splice of the transform, on a child list decomposed at the
first occurrence of the flow parent: the newline text node and the
sidenote land immediately after the flow parent, everything else keeps
its place. -/
theorem spliceSidenote_decomp (x sn : Node) (l r : List Node) (hx : x ∉ l) :
    spliceSidenote (l ++ x :: r) x sn = l ++ x :: Node.text "\n " :: sn :: r := by
  have hl : (l ++ x :: r).take (l.length + 1) = l ++ [x] := by
    have he : l ++ x :: r = (l ++ [x]) ++ r := by simp
    rw [he]
    have hlen : l.length + 1 = (l ++ [x]).length := by simp
    rw [hlen, List.take_left]
  have hr : (l ++ x :: r).drop (l.length + 1) = r := by
    have he : l ++ x :: r = (l ++ [x]) ++ r := by simp
    rw [he]
    have hlen : l.length + 1 = (l ++ [x]).length := by simp
    rw [hlen, List.drop_left]
  unfold spliceSidenote
  rw [findIdx?_first x l r hx]
  show (l ++ x :: r).take (l.length + 1) ++
      Node.text "\n " :: sn :: (l ++ x :: r).drop (l.length + 1) =
    l ++ x :: Node.text "\n " :: sn :: r
  rw [hl, hr]
  simp

/-! ### Sorting membership -/

/-- Insertion keeps exactly the inserted node and the previous ones. -/
theorem mem_insertByDepth (x a : Node) : ∀ (l : List Node),
    a ∈ insertByDepth x l ↔ a = x ∨ a ∈ l
  | [] => by simp [insertByDepth]
  | y :: ys => by
      rw [insertByDepth]
      by_cases hd : elDepth x 0 < elDepth y 0
      · rw [if_pos hd]; simp
      · rw [if_neg hd]
        simp [mem_insertByDepth x a ys]
        tauto

/-- The insertion-sort fold keeps exactly the accumulated and incoming
nodes. -/
theorem mem_sortByDepth_aux (a : Node) : ∀ (l acc : List Node),
    a ∈ l.foldl (fun acc x => insertByDepth x acc) acc ↔ a ∈ acc ∨ a ∈ l
  | [], acc => by simp
  | x :: xs, acc => by
      rw [List.foldl_cons]
      rw [mem_sortByDepth_aux a xs (insertByDepth x acc)]
      simp [mem_insertByDepth]
      tauto

/-- Sorting by depth is a permutation membership-wise. -/
theorem mem_sortByDepth (l : List Node) (a : Node) : a ∈ sortByDepth l ↔ a ∈ l := by
  rw [sortByDepth, mem_sortByDepth_aux]
  simp

/-- Where `findLogicalSectionParent` finds a section: either the
root-fallback returned the searched tree itself, or the section is one
of the candidates. -/
theorem findLogicalSectionParent_cases (idOfEl : String) (t sec : Node)
    (h : findLogicalSectionParent idOfEl t = some sec) :
    (sectionCandidates idOfEl t = [] ∧ sec = t ∧ t.isRoot = true) ∨
      sec ∈ sectionCandidates idOfEl t := by
  unfold findLogicalSectionParent at h
  cases hce : (sectionCandidates idOfEl t).isEmpty with
  | true =>
      rw [if_pos hce] at h
      cases hr : t.isRoot with
      | true =>
          rw [if_pos hr] at h
          exact Or.inl ⟨List.isEmpty_iff.mp hce, (Option.some_inj.mp h).symm, rfl⟩
      | false => rw [if_neg (by rw [hr]; simp)] at h; simp at h
  | false =>
      rw [if_neg (by rw [hce]; simp)] at h
      have := List.mem_of_mem_head? h
      exact Or.inr ((mem_sortByDepth _ _).mp this)

/-! ### Claim C1 -/

/-- **C1.**  For every footnote the per-footnote state machine
converts (validation, reference, logical section and flow parent all
succeed), the logical section's child sequence decomposes around the
flow parent with no earlier occurrence of it, the spliced section holds
the newline-plus-space text node and the sidenote immediately after the
flow parent (with everything else in place), that spliced section is a
node of the post-splice tree, and the transform's result is exactly
that tree with the (mutated) footnote removed from its old location. -/
theorem c1_sidenote_follows_flow_parent (el tree ref sec parent : Node)
    (hval : isValidFootnote el tree = true)
    (href : findRef el tree = some ref)
    (hsec : findLogicalSectionParent (ref.strProp "id") (treeAfterConvert el ref tree) = some sec)
    (hpar : findFlowParent (ref.strProp "id") sec = some parent) :
    ∃ l r, sec.childrenOf = l ++ parent :: r ∧ parent ∉ l ∧
      (splicedSection el ref sec parent).childrenOf =
        l ++ parent :: Node.text "\n " :: convertedSidenote el ref :: r ∧
      splicedSection el ref sec parent ∈ allNodes (treeAfterSplice el ref tree sec parent) ∧
      transformAndShiftFootnote el tree =
        removeElN (mutatedFootnote el ref) (treeAfterSplice el ref tree sec parent) := by
  have hsecKind : sec.isElement = true ∨ sec.isRoot = true := by
    rcases findLogicalSectionParent_cases _ _ _ hsec with ⟨_, rfl, hr⟩ | hmem
    · exact Or.inr hr
    · have := (List.mem_filter.mp hmem).2
      exact Or.inl (by
        cases hb : sec.isElement
        · rw [hb] at this; simp at this
        · rfl)
  have hpar' : sec.childrenOf.find?
      (fun c => c.isElement && blockElements.contains c.tagOf &&
        hasDescWithId c (ref.strProp "id")) = some parent := hpar
  obtain ⟨l, r, hdec, hfail⟩ :=
    find?_decomp _ sec.childrenOf parent hpar'
  have hpp0 := List.find?_some hpar'
  have hpp : (parent.isElement && blockElements.contains parent.tagOf &&
      hasDescWithId parent (ref.strProp "id")) = true := hpp0
  have hnotin : parent ∉ l := by
    intro hmem
    have hfl := hfail parent hmem
    rw [hfl] at hpp
    exact Bool.false_ne_true hpp
  have hchild : (splicedSection el ref sec parent).childrenOf =
      spliceSidenote sec.childrenOf parent (convertedSidenote el ref) := by
    unfold splicedSection
    cases sec <;> first
      | rfl
      | (rcases hsecKind with h1 | h1 <;> simp [Node.isElement, Node.isRoot] at h1)
  refine ⟨l, r, hdec, hnotin, ?_, ?_, ?_⟩
  · rw [hchild, hdec, spliceSidenote_decomp _ _ _ _ hnotin]
  · unfold treeAfterSplice
    by_cases hif : sec = treeAfterConvert el ref tree
    · rw [if_pos hif]
      exact mem_allNodes_self _
    · rw [if_neg hif]
      apply replaceFirstN_mem
      rw [containsN_iff]
      rcases findLogicalSectionParent_cases _ _ _ hsec with ⟨_, hst, _⟩ | hmem
      · exact absurd hst hif
      · exact (List.mem_filter.mp hmem).1
  · unfold transformAndShiftFootnote
    rw [if_pos hval, href]
    simp only [hsec, hpar]

/-- **C1, witness.**  The splice statement instantiated on a concrete
document: one footnote, referenced from a paragraph inside a `div`. -/
theorem c1_witness :
    isValidFootnote (.element "li" [("id", "fn-1")] [.element "p" [] [.text "note"]])
      (.root
        [.element "div" []
          [.element "p" [] [.element "a" [("id", "r-1"), ("href", "#fn-1")] [.text "1"]]],
         .element "div" [("data-footnotes", "")]
           [.element "ol" []
             [.element "li" [("id", "fn-1")] [.element "p" [] [.text "note"]]]]]) = true ∧
    findRef (.element "li" [("id", "fn-1")] [.element "p" [] [.text "note"]])
      (.root
        [.element "div" []
          [.element "p" [] [.element "a" [("id", "r-1"), ("href", "#fn-1")] [.text "1"]]],
         .element "div" [("data-footnotes", "")]
           [.element "ol" []
             [.element "li" [("id", "fn-1")] [.element "p" [] [.text "note"]]]]]) =
      some (.element "a" [("id", "r-1"), ("href", "#fn-1")] [.text "1"]) ∧
    findLogicalSectionParent
      ((Node.element "a" [("id", "r-1"), ("href", "#fn-1")] [.text "1"]).strProp "id")
      (treeAfterConvert (.element "li" [("id", "fn-1")] [.element "p" [] [.text "note"]])
        (.element "a" [("id", "r-1"), ("href", "#fn-1")] [.text "1"])
        (.root
          [.element "div" []
            [.element "p" [] [.element "a" [("id", "r-1"), ("href", "#fn-1")] [.text "1"]]],
           .element "div" [("data-footnotes", "")]
             [.element "ol" []
               [.element "li" [("id", "fn-1")] [.element "p" [] [.text "note"]]]]])) =
      some (.element "div" []
        [.element "p" [] [.element "a" [("id", "r-1"), ("href", "#fn-1")] [.text "1"]]]) ∧
    findFlowParent
      ((Node.element "a" [("id", "r-1"), ("href", "#fn-1")] [.text "1"]).strProp "id")
      (.element "div" []
        [.element "p" [] [.element "a" [("id", "r-1"), ("href", "#fn-1")] [.text "1"]]]) =
      some (.element "p" [] [.element "a" [("id", "r-1"), ("href", "#fn-1")] [.text "1"]]) ∧
    (∃ l r,
      (Node.element "div" []
        [.element "p" [] [.element "a" [("id", "r-1"), ("href", "#fn-1")] [.text "1"]]]).childrenOf =
          l ++ (Node.element "p" [] [.element "a" [("id", "r-1"), ("href", "#fn-1")] [.text "1"]]) :: r ∧
      (Node.element "p" [] [.element "a" [("id", "r-1"), ("href", "#fn-1")] [.text "1"]]) ∉ l ∧
      (splicedSection (.element "li" [("id", "fn-1")] [.element "p" [] [.text "note"]])
        (.element "a" [("id", "r-1"), ("href", "#fn-1")] [.text "1"])
        (.element "div" []
          [.element "p" [] [.element "a" [("id", "r-1"), ("href", "#fn-1")] [.text "1"]]])
        (.element "p" [] [.element "a" [("id", "r-1"), ("href", "#fn-1")] [.text "1"]])).childrenOf =
        l ++ (Node.element "p" [] [.element "a" [("id", "r-1"), ("href", "#fn-1")] [.text "1"]]) ::
          Node.text "\n " ::
          convertedSidenote (.element "li" [("id", "fn-1")] [.element "p" [] [.text "note"]])
            (.element "a" [("id", "r-1"), ("href", "#fn-1")] [.text "1"]) :: r ∧
      splicedSection (.element "li" [("id", "fn-1")] [.element "p" [] [.text "note"]])
        (.element "a" [("id", "r-1"), ("href", "#fn-1")] [.text "1"])
        (.element "div" []
          [.element "p" [] [.element "a" [("id", "r-1"), ("href", "#fn-1")] [.text "1"]]])
        (.element "p" [] [.element "a" [("id", "r-1"), ("href", "#fn-1")] [.text "1"]]) ∈
        allNodes (treeAfterSplice
          (.element "li" [("id", "fn-1")] [.element "p" [] [.text "note"]])
          (.element "a" [("id", "r-1"), ("href", "#fn-1")] [.text "1"])
          (.root
            [.element "div" []
              [.element "p" [] [.element "a" [("id", "r-1"), ("href", "#fn-1")] [.text "1"]]],
             .element "div" [("data-footnotes", "")]
               [.element "ol" []
                 [.element "li" [("id", "fn-1")] [.element "p" [] [.text "note"]]]]])
          (.element "div" []
            [.element "p" [] [.element "a" [("id", "r-1"), ("href", "#fn-1")] [.text "1"]]])
          (.element "p" [] [.element "a" [("id", "r-1"), ("href", "#fn-1")] [.text "1"]])) ∧
      transformAndShiftFootnote (.element "li" [("id", "fn-1")] [.element "p" [] [.text "note"]])
        (.root
          [.element "div" []
            [.element "p" [] [.element "a" [("id", "r-1"), ("href", "#fn-1")] [.text "1"]]],
           .element "div" [("data-footnotes", "")]
             [.element "ol" []
               [.element "li" [("id", "fn-1")] [.element "p" [] [.text "note"]]]]]) =
        removeElN
          (mutatedFootnote (.element "li" [("id", "fn-1")] [.element "p" [] [.text "note"]])
            (.element "a" [("id", "r-1"), ("href", "#fn-1")] [.text "1"]))
          (treeAfterSplice
            (.element "li" [("id", "fn-1")] [.element "p" [] [.text "note"]])
            (.element "a" [("id", "r-1"), ("href", "#fn-1")] [.text "1"])
            (.root
              [.element "div" []
                [.element "p" [] [.element "a" [("id", "r-1"), ("href", "#fn-1")] [.text "1"]]],
               .element "div" [("data-footnotes", "")]
                 [.element "ol" []
                   [.element "li" [("id", "fn-1")] [.element "p" [] [.text "note"]]]]])
            (.element "div" []
              [.element "p" [] [.element "a" [("id", "r-1"), ("href", "#fn-1")] [.text "1"]]])
            (.element "p" [] [.element "a" [("id", "r-1"), ("href", "#fn-1")] [.text "1"]]))) :=
  ⟨by decide, by decide, by decide, by decide,
   c1_sidenote_follows_flow_parent _ _ _ _ _ (by decide) (by decide) (by decide) (by decide)⟩

/-! ### Claim C6 -/

mutual
/-- The collected footnote list items are a subsequence of the preorder
listing: `selectAll` yields them in document order. -/
theorem fnLis_sublist : ∀ (under : Bool) (t : Node),
    List.Sublist (fnLis under t) (allNodes t)
  | under, .root cs => by
      rw [fnLis, allNodes]
      exact (fnLisL_sublist under cs).cons _
  | under, .element t p cs => by
      rw [fnLis, allNodes]
      by_cases hc : (under && t == "li") = true
      · rw [if_pos hc]
        exact List.Sublist.cons₂ _ (fnLisL_sublist _ cs)
      · rw [if_neg hc]
        simpa using (fnLisL_sublist _ cs).cons _
  | _, .text _ => by rw [fnLis]; exact List.nil_sublist _
  | _, .comment _ => by rw [fnLis]; exact List.nil_sublist _
/-- `fnLis_sublist` over a forest. -/
theorem fnLisL_sublist : ∀ (under : Bool) (cs : List Node),
    List.Sublist (fnLisL under cs) (allNodesL cs)
  | _, [] => by rw [fnLisL, allNodesL]
  | under, c :: cs => by
      rw [fnLisL, allNodesL]
      exact (fnLis_sublist under c).append (fnLisL_sublist under cs)
end

/-- **C6.**  The top-level pass collects the footnote list items in
document order (a subsequence of the preorder listing) and processes
them in reverse; and since each conversion splices its sidenote
directly after the flow parent, two sidenotes anchored at the same flow
parent end up in ascending order: splicing the later footnote's
sidenote first and the earlier footnote's second leaves the section's
children with the earlier sidenote first, immediately after the flow
parent. -/
theorem c6_reverse_processing_preserves_order :
    (∀ t : Node, List.Sublist (fnListItems t) (allNodes t)) ∧
    (∀ t : Node, processFootnotes t =
      ((fnListItems t).reverse).foldl (fun acc el => transformAndShiftFootnote el acc) t) ∧
    (∀ (l r : List Node) (p sn₁ sn₂ : Node), p ∉ l →
      spliceSidenote (spliceSidenote (l ++ p :: r) p sn₂) p sn₁ =
        l ++ p :: Node.text "\n " :: sn₁ :: Node.text "\n " :: sn₂ :: r) := by
  refine ⟨fun t => fnLis_sublist false t, fun t => rfl, ?_⟩
  intro l r p sn₁ sn₂ hp
  rw [spliceSidenote_decomp _ _ _ _ hp, spliceSidenote_decomp _ _ _ _ hp]

/-- **C6, witness.**  Two sidenotes spliced after the same flow parent,
later footnote first: the earlier one ends up first. -/
theorem c6_witness :
    (Node.comment "q" ∉ ([] : List Node)) ∧
    spliceSidenote
        (spliceSidenote ([] ++ Node.comment "q" :: []) (Node.comment "q") (Node.text "s2"))
        (Node.comment "q") (Node.text "s1") =
      [] ++ Node.comment "q" :: Node.text "\n " :: Node.text "s1" ::
        Node.text "\n " :: Node.text "s2" :: [] :=
  ⟨by decide, c6_reverse_processing_preserves_order.2.2 [] [] _ _ _ (by decide)⟩

/-! ### Claim C5 -/

mutual
/-- The accumulator of `elDepth` is additive: the source's
`elDepth(el, d)` is `d` plus the depth as the specification words it
(`1` for a childless node, otherwise `1 +` the maximum child depth). -/
theorem elDepth_spec : ∀ (t : Node) (d : Nat), elDepth t d = d + specDepth t
  | .text _, _ => by rw [elDepth, specDepth]
  | .comment _, _ => by rw [elDepth, specDepth]
  | .root cs, d => by
      rw [elDepth, specDepth]
      cases hc : cs.isEmpty with
      | true => rw [if_pos rfl, if_pos rfl]
      | false =>
          rw [if_neg (by simp), if_neg (by simp)]
          rw [elDepthMax_spec cs (d + 1)
            (fun hn => by rw [hn] at hc; simp at hc)]
          omega
  | .element _ _ cs, d => by
      rw [elDepth, specDepth]
      cases hc : cs.isEmpty with
      | true => rw [if_pos rfl, if_pos rfl]
      | false =>
          rw [if_neg (by simp), if_neg (by simp)]
          rw [elDepthMax_spec cs (d + 1)
            (fun hn => by rw [hn] at hc; simp at hc)]
          omega
/-- `elDepth_spec` for the maximum over a non-empty child list. -/
theorem elDepthMax_spec : ∀ (cs : List Node) (d : Nat), cs ≠ [] →
    elDepthMax cs d = d + specDepthMax cs
  | [], _, h => absurd rfl h
  | [c], d, _ => by
      rw [elDepthMax, specDepthMax, elDepthMax, specDepthMax, elDepth_spec c d]
      omega
  | c :: c' :: cs, d, _ => by
      rw [elDepthMax, specDepthMax, elDepth_spec c d,
        elDepthMax_spec (c' :: cs) d (by simp)]
      omega
end

/-- The head of an insertion step: the incoming node takes the front
only when strictly shallower than the current front. -/
theorem head?_insertByDepth (x : Node) (acc : List Node) :
    (insertByDepth x acc).head? = some (match acc.head? with
      | none => x
      | some y => if elDepth x 0 < elDepth y 0 then x else y) := by
  cases acc with
  | nil => rfl
  | cons y ys =>
      rw [insertByDepth]
      by_cases h : elDepth x 0 < elDepth y 0
      · rw [if_pos h]; simp [h]
      · rw [if_neg h]; simp [h]

theorem sortByDepth_append_single (l : List Node) (x : Node) :
    sortByDepth (l ++ [x]) = insertByDepth x (sortByDepth l) := by
  simp [sortByDepth, List.foldl_append]

/-- The front of the stable depth sort: the document-order first
candidate of minimal depth — every earlier candidate is strictly
deeper, every candidate at least as deep. -/
theorem sortByDepth_head (l : List Node) (hne : l ≠ []) :
    ∃ m l1 l2, (sortByDepth l).head? = some m ∧ l = l1 ++ m :: l2 ∧
      (∀ x ∈ l1, elDepth m 0 < elDepth x 0) ∧ (∀ x ∈ l, elDepth m 0 ≤ elDepth x 0) := by
  induction l using List.reverseRecOn with
  | nil => exact absurd rfl hne
  | append_singleton l x ih =>
      by_cases hl : l = []
      · subst hl
        exact ⟨x, [], [], rfl, rfl, by simp, by simp⟩
      · obtain ⟨m, l1, l2, hhead, hdec, hfirst, hmin⟩ := ih hl
        rw [sortByDepth_append_single, head?_insertByDepth, hhead]
        by_cases hx : elDepth x 0 < elDepth m 0
        · refine ⟨x, l, [], by simp [hx], rfl, ?_, ?_⟩
          · intro y hy
            exact lt_of_lt_of_le hx (hmin y hy)
          · intro y hy
            rcases List.mem_append.mp hy with hy' | hy'
            · exact le_of_lt (lt_of_lt_of_le hx (hmin y hy'))
            · simp at hy'; subst hy'; exact le_refl _
        · refine ⟨m, l1, l2 ++ [x], by simp [hx], by simp [hdec], hfirst, ?_⟩
          intro y hy
          rcases List.mem_append.mp hy with hy' | hy'
          · exact hmin y hy'
          · simp at hy'; subst hy'; omega

/-- **C5.**  `findLogicalSectionParent` returns, among the
div/section/article/main elements containing an element with the target
id, the first after the stable ascending sort by subtree depth — the
document-order first candidate of minimal depth, where the depth of a
node is `1` plus the maximum depth of its children (`1` when childless);
and when no candidate exists and the search tree is the document root,
it returns the root itself rather than absent. -/
theorem c5_section_by_minimal_depth (idOfEl : String) (t : Node) :
    (sectionCandidates idOfEl t = [] → t.isRoot = true →
        findLogicalSectionParent idOfEl t = some t) ∧
    (sectionCandidates idOfEl t ≠ [] →
      ∃ sec l1 l2, findLogicalSectionParent idOfEl t = some sec ∧
        sectionCandidates idOfEl t = l1 ++ sec :: l2 ∧
        (∀ c ∈ l1, specDepth sec < specDepth c) ∧
        (∀ c ∈ sectionCandidates idOfEl t, specDepth sec ≤ specDepth c)) := by
  constructor
  · intro hnil hroot
    unfold findLogicalSectionParent
    rw [if_pos (by simp [hnil]), if_pos hroot]
  · intro hne
    obtain ⟨m, l1, l2, hhead, hdec, hfirst, hmin⟩ := sortByDepth_head _ hne
    refine ⟨m, l1, l2, ?_, hdec, ?_, ?_⟩
    · unfold findLogicalSectionParent
      rw [if_neg (by simpa [List.isEmpty_iff] using hne)]
      exact hhead
    · intro c hc
      have := hfirst c hc
      rwa [elDepth_spec m 0, elDepth_spec c 0, Nat.zero_add, Nat.zero_add] at this
    · intro c hc
      have := hmin c hc
      rwa [elDepth_spec m 0, elDepth_spec c 0, Nat.zero_add, Nat.zero_add] at this

/-- **C5, witness.**  A nested pair of `div` candidates: the inner,
structurally smallest one wins the depth tie-break. -/
theorem c5_witness :
    sectionCandidates "x"
      (Node.root
        [.element "div" [("id", "outer")]
          [.element "div" [("id", "inner")] [.element "span" [("id", "x")] []]]]) ≠ [] ∧
    (∃ sec l1 l2,
      findLogicalSectionParent "x"
        (Node.root
          [.element "div" [("id", "outer")]
            [.element "div" [("id", "inner")] [.element "span" [("id", "x")] []]]]) = some sec ∧
      sectionCandidates "x"
        (Node.root
          [.element "div" [("id", "outer")]
            [.element "div" [("id", "inner")] [.element "span" [("id", "x")] []]]]) =
        l1 ++ sec :: l2 ∧
      (∀ c ∈ l1, specDepth sec < specDepth c) ∧
      (∀ c ∈ sectionCandidates "x"
        (Node.root
          [.element "div" [("id", "outer")]
            [.element "div" [("id", "inner")] [.element "span" [("id", "x")] []]]]),
        specDepth sec ≤ specDepth c)) :=
  ⟨by decide,
   (c5_section_by_minimal_depth "x"
     (Node.root
       [.element "div" [("id", "outer")]
         [.element "div" [("id", "inner")] [.element "span" [("id", "x")] []]]])).2 (by decide)⟩

/-! ### Claim C2 -/

/-- `takeWhile`/`dropWhile` on a list made of an all-true prefix, a
failing element and a tail. -/
theorem takeWhile_dropWhile_append (p : Char → Bool) (y : Char) (hy : p y = false) :
    ∀ (l1 l2 : List Char), (∀ x ∈ l1, p x = true) →
      (l1 ++ y :: l2).takeWhile p = l1 ∧ (l1 ++ y :: l2).dropWhile p = y :: l2
  | [], l2, _ => by simp [List.takeWhile_cons, List.dropWhile_cons, hy]
  | a :: l1, l2, h1 => by
      have ha : p a = true := h1 a (by simp)
      have ih := takeWhile_dropWhile_append p y hy l1 l2 (fun x hx => h1 x (by simp [hx]))
      simp [List.takeWhile_cons, List.dropWhile_cons, ha, ih.1, ih.2]

/-- The embedded regular expression agrees with the specification's
description of the footnote-id pattern. -/
theorem fnIdValid_iff (s : String) : fnIdValid s = true ↔ SpecIdPattern s := by
  constructor
  · intro h
    rw [fnIdValid] at h
    simp only [Bool.and_eq_true, Bool.not_eq_eq_eq_not, Bool.not_true] at h
    obtain ⟨hne, hm⟩ := h
    rcases hr : s.data.reverse.dropWhile Char.isDigit with _ | ⟨c0, rest1⟩
    · rw [hr] at hm; simp at hm
    rcases rest1 with _ | ⟨c1, rest2⟩
    · rw [hr] at hm; simp at hm
    rcases rest2 with _ | ⟨c2, rest3⟩
    · rw [hr] at hm; simp at hm
    rw [hr] at hm
    simp only [Bool.and_eq_true, Bool.or_eq_true, beq_iff_eq] at hm
    obtain ⟨⟨hc0, hc1⟩, hc2⟩ := hm
    refine ⟨rest3.reverse, c0, (s.data.reverse.takeWhile Char.isDigit).reverse, hc0, ?_, ?_, ?_⟩
    · intro hnil
      rw [List.reverse_eq_nil_iff] at hnil
      rw [hnil] at hne
      simp at hne
    · intro c hc
      exact List.mem_takeWhile_imp (List.mem_reverse.mp hc)
    · have hsplit := List.takeWhile_append_dropWhile (p := Char.isDigit) (l := s.data.reverse)
      have hdata : s.data = (s.data.reverse.takeWhile Char.isDigit ++
          (c0 :: c1 :: c2 :: rest3)).reverse := by
        rw [← hr, hsplit]; simp
      subst hc1; subst hc2
      conv_lhs => rw [hdata]
      simp
  · rintro ⟨pre, sep, ds, hsep, hds, hdig, hdata⟩
    have hsepd : Char.isDigit sep = false := by
      rcases hsep with rfl | rfl <;> decide
    have hrev : s.data.reverse = ds.reverse ++ sep :: 'n' :: 'f' :: pre.reverse := by
      rw [hdata]
      simp
    have hdig' : ∀ x ∈ ds.reverse, Char.isDigit x = true :=
      fun x hx => hdig x (List.mem_reverse.mp hx)
    obtain ⟨htw, hdw⟩ :=
      takeWhile_dropWhile_append Char.isDigit sep hsepd ds.reverse ('n' :: 'f' :: pre.reverse) hdig'
    rw [fnIdValid, hrev, htw, hdw]
    have hne : ds.reverse.isEmpty = false := by
      rw [List.isEmpty_eq_false_iff_exists_mem]
      obtain ⟨x, hx⟩ := List.exists_mem_of_ne_nil ds hds
      exact ⟨x, List.mem_reverse.mpr hx⟩
    rcases hsep with rfl | rfl <;> simp [hne]

mutual
/-- Descendant-combinator search, characterised: a node satisfying `P`
with an ancestor satisfying `Q` exists among the accumulated pairs iff
either an already-seen ancestor satisfies `Q` and the subtree holds a
`P`-node, or the subtree itself holds a `Q`-node with a proper
`P`-descendant. -/
theorem nwa_any (P Q : Node → Bool) : ∀ (anc : List Node) (t : Node),
    ((nodesWithAncestors anc t).any (fun pr => P pr.1 && pr.2.any Q) = true) ↔
      ((anc.any Q = true ∧ (allNodes t).any P = true) ∨
        (allNodes t).any (fun c => Q c && (properDescendants c).any P) = true)
  | anc, .root cs => by
      rw [nodesWithAncestors, allNodes]
      simp only [List.any_cons, Bool.or_eq_true, Bool.and_eq_true,
        nwaL_any P Q (.root cs :: anc) cs, List.any_cons,
        properDescendants, Node.childrenOf]
      tauto
  | anc, .element t p cs => by
      rw [nodesWithAncestors, allNodes]
      simp only [List.any_cons, Bool.or_eq_true, Bool.and_eq_true,
        nwaL_any P Q (.element t p cs :: anc) cs, List.any_cons,
        properDescendants, Node.childrenOf]
      tauto
  | anc, .text v => by
      rw [nodesWithAncestors, allNodes]
      simp only [List.any_cons, List.any_nil, Bool.or_eq_true, Bool.and_eq_true,
        properDescendants, Node.childrenOf, allNodesL]
      tauto
  | anc, .comment v => by
      rw [nodesWithAncestors, allNodes]
      simp only [List.any_cons, List.any_nil, Bool.or_eq_true, Bool.and_eq_true,
        properDescendants, Node.childrenOf, allNodesL]
      tauto
/-- `nwa_any` over a forest. -/
theorem nwaL_any (P Q : Node → Bool) : ∀ (anc : List Node) (cs : List Node),
    ((nodesWithAncestorsL anc cs).any (fun pr => P pr.1 && pr.2.any Q) = true) ↔
      ((anc.any Q = true ∧ (allNodesL cs).any P = true) ∨
        (allNodesL cs).any (fun c => Q c && (properDescendants c).any P) = true)
  | anc, [] => by
      rw [nodesWithAncestorsL, allNodesL]
      simp
  | anc, c :: cs => by
      rw [nodesWithAncestorsL, allNodesL]
      simp only [List.any_append, Bool.or_eq_true,
        nwa_any P Q anc c, nwaL_any P Q anc cs]
      tauto
end

/-- The container-ancestry selector succeeds iff the specification's
container-ancestry condition holds. -/
theorem selectIdUnderContainer_isSome_iff (targetId : String) (t : Node) :
    (selectIdUnderContainer targetId t).isSome = true ↔ SpecInContainer targetId t := by
  have hsel : (selectIdUnderContainer targetId t).isSome = true ↔
      (nodesWithAncestors [] t).any
        (fun pr => (pr.1.isElement && pr.1.propEq "id" targetId) && pr.2.any isFnContainer) =
        true := by
    simp [selectIdUnderContainer, List.find?_isSome, List.any_eq_true, Bool.and_assoc]
  have h2 := nwa_any (fun n => n.isElement && n.propEq "id" targetId) isFnContainer [] t
  refine hsel.trans (h2.trans ?_)
  simp only [List.any_nil, Bool.false_eq_true, false_and, false_or, List.any_eq_true,
    Bool.and_eq_true, SpecInContainer]

/-- The reference selector succeeds iff the specification's
existing-reference condition holds. -/
theorem selectHref_isSome_iff (targetId : String) (t : Node) :
    (selectFirst (fun n => n.isElement && n.propEq "href" ("#" ++ targetId)) t).isSome = true ↔
      SpecHasRef targetId t := by
  simp [selectFirst, List.find?_isSome, SpecHasRef, Bool.and_eq_true]

/-- **C2.**  `isValidFootnote(e, tree)` is true iff all three hold: the
(stringified) id matches the footnote-id pattern ending in `fn-<digits>`
or `fn:<digits>`; some element with that id is a proper descendant of a
container carrying the `data-footnotes` attribute or the `footnotes`
class; and some element in the tree has `href` equal to `#` followed by
that id.  Each condition failing independently makes the result
false. -/
theorem c2_isValidFootnote_iff (el tree : Node) :
    isValidFootnote el tree = true ↔
      (SpecIdPattern (el.strProp "id") ∧ SpecInContainer (el.strProp "id") tree ∧
        SpecHasRef (el.strProp "id") tree) := by
  have h1 := fnIdValid_iff (el.strProp "id")
  have h2 := selectIdUnderContainer_isSome_iff (el.strProp "id") tree
  have h3 := selectHref_isSome_iff (el.strProp "id") tree
  simp only [isValidFootnote, Bool.and_eq_true]
  rw [h1, h2, h3]
  tauto

/-! ### Validation examples

The embedding checked against the repository's own test cases
(`isValidFootnote`, `convertFootnoteToSidenote`) and an end-to-end run
of the transformer on a small document. -/

example : fnIdValid "user-content-fn-1" = true := by decide
example : fnIdValid "fn:12" = true := by decide
example : fnIdValid "fn-" = false := by decide
example : fnIdValid "does-not-conform" = false := by decide

-- vitest: non-conforming id inside a bare ol
example :
    isValidFootnote (.element "li" [("id", "does-not-conform-to-pattern")] [])
      (.element "ol" [] [.element "li" [("id", "does-not-conform-to-pattern")] []]) = false := by
  decide

-- vitest: valid id but no data-footnotes ancestor
example :
    isValidFootnote (.element "li" [("id", "user-content-fn-3")] [])
      (.element "section" [("data-unrelated", "")]
        [.element "ol" [] [.element "li" [("id", "user-content-fn-3")] []]]) = false := by
  decide

-- vitest: valid id + container but no matching reference
example :
    isValidFootnote (.element "li" [("id", "user-content-fn-3")] [])
      (.element "div" []
        [.element "p" [] [.element "a" [("href", "#not-a-relevant-id")] []],
         .element "section" [("data-footnotes", "")]
           [.element "ol" [] [.element "li" [("id", "user-content-fn-3")] []]]]) = false := by
  decide

-- vitest: all three conditions hold
example :
    isValidFootnote (.element "li" [("id", "user-content-fn-3")] [])
      (.element "div" []
        [.element "p" [] [.element "a" [("href", "#user-content-fn-3")] []],
         .element "section" [("data-footnotes", "")]
           [.element "ol" [] [.element "li" [("id", "user-content-fn-3")] []]]]) = true := by
  decide

-- vitest: alternate fn:3 pattern
example :
    isValidFootnote (.element "li" [("id", "fn:3")] [])
      (.element "div" []
        [.element "p" [] [.element "a" [("href", "#fn:3")] []],
         .element "section" [("data-footnotes", "")]
           [.element "ol" [] [.element "li" [("id", "fn:3")] []]]]) = true := by
  decide

-- vitest: class-based container
example :
    isValidFootnote (.element "li" [("id", "user-content-fn-3")] [])
      (.element "div" []
        [.element "p" [] [.element "a" [("href", "#user-content-fn-3")] []],
         .element "div" [("className", "footnotes")]
           [.element "ol" [] [.element "li" [("id", "user-content-fn-3")] []]]]) = true := by
  decide

-- vitest li01/aside01 (label 5)
example :
    (convertFootnoteToSidenote
      (.element "li" [("id", "user-content-fn-3")]
        [.text " ", .element "p" [] [.text "This is a footnote, soon to be an endnote."]])
      "5").1 =
    .element "aside"
      [("className", "Sidenote"), ("id", "user-content-fn-3"), ("role", "doc-footnote")]
      [.text "\n ",
       .element "p" []
         [.element "small" [("className", "Sidenote-small")]
           [.element "sup" [("className", "Sidenote-number")] [.text "5 "],
            .text "This is a footnote, soon to be an endnote."]],
       .text "\n "] := by decide

-- end-to-end smoke test
example :
    (fnListItems (transformer (.root
      [.element "div" []
        [.element "p" [] [.element "a" [("id", "r-1"), ("href", "#fn-1")] [.text "1"]]],
       .element "div" [("data-footnotes", "")]
         [.element "ol" [] [.element "li" [("id", "fn-1")] [.element "p" [] [.text "note"]]]]]))) = []
    := by decide

-- end-to-end: full expected output (sidenote after the flow parent, container gone)
example :
    transformer (.root
      [.element "div" []
        [.element "p" [] [.element "a" [("id", "r-1"), ("href", "#fn-1")] [.text "1"]]],
       .element "div" [("data-footnotes", "")]
         [.element "ol" [] [.element "li" [("id", "fn-1")] [.element "p" [] [.text "note"]]]]]) =
    .root
      [.element "div" []
        [.element "p" [] [.element "a" [("id", "r-1"), ("href", "#fn-1")] [.text "1"]],
         .text "\n ",
         .element "aside"
           [("className", "Sidenote"), ("id", "fn-1"), ("role", "doc-footnote")]
           [.text "\n ",
            .element "p" []
              [.element "small" [("className", "Sidenote-small")]
                [.element "sup" [("className", "Sidenote-number")] [.text "1 "],
                 .text "note"]],
            .text "\n "]]] := by decide

end RehypeSidenotes
